import Mathlib

/-!
A shallow embedding of the fast-pdf-parser hierarchical chunking pipeline
(`src/hierarchical_chunker.cpp`), its greedy tokenizer
(`include/fast_pdf_parser/tiktoken_tokenizer.h`), and the streaming page
dispatcher (`src/fast_pdf_parser.cpp`), together with theorems settling the
specification claims about them.

Modelling conventions:
* C++ byte strings are `List Char`, one `Char` per byte (all concrete inputs
  used below are ASCII, so bytes and characters coincide).
* C++ `int`/`size_t` token counts are `Nat`; page numbers, which the code
  initialises to `-1`, are `Int`.
* The embedded cl100k vocabulary blob (`cl100k_base_data.h`) is not part of
  the sources, so the vocabulary is an explicit parameter everywhere.
* The floating-point comparisons `tokens >= max_tokens * 0.8` and
  `combined <= max_tokens * 1.1` are modelled by the exact integer tests
  `5 * tokens ≥ 4 * max_tokens` and `10 * combined ≤ 11 * max_tokens`; a
  routine error analysis of the double-precision constants 0.8 and 1.1 shows
  these agree with the C++ evaluation for every `max_tokens` below `2 ^ 50`.
-/

namespace FastPdfParser

/-- A C++ byte string: one `Char` per byte. -/
abbrev Str := List Char

/-- Conversion helper used to write concrete byte strings. -/
def str (s : String) : Str := s.data

/-- The tokenizer vocabulary, `std::unordered_map<std::string, int>`, as an
association list from byte strings to token ids. -/
abbrev Vocab := List (Str × Nat)

/-- `vocab.encoder.find(substr)`: exact-key lookup. -/
def vocabFind (vocab : Vocab) (s : Str) : Option Nat :=
  (vocab.find? (fun p => p.1 == s)).map (·.2)

/-- The inner loop of `TiktokenTokenizer::encode`: try byte lengths
`len, len - 1, …, 1` at the current position; the first length whose
substring is in the vocabulary wins.  Returns the token id and the matched
length. -/
def tryLens (vocab : Vocab) (text : Str) : Nat → Option (Nat × Nat)
  | 0 => none
  | l + 1 =>
    match vocabFind vocab (text.take (l + 1)) with
    | some t => some (t, l + 1)
    | none => tryLens vocab text l

/-- The scanning loop of `TiktokenTokenizer::encode`: greedy longest match
(candidate lengths capped at 20 bytes) with single-byte fallback, tokens
0–255 standing for raw bytes.  `fuel` bounds the number of loop iterations;
every iteration consumes at least one byte, so `text.length` is sufficient
fuel and the `0` case is unreachable from `encode`. -/
def encodeAux (vocab : Vocab) : Nat → Str → List Nat
  | _, [] => []
  | 0, _ :: _ => []
  | fuel + 1, c :: rest =>
    match tryLens vocab (c :: rest) (min (c :: rest).length 20) with
    | some (t, l) => t :: encodeAux vocab fuel ((c :: rest).drop l)
    | none => (c.toNat % 256) :: encodeAux vocab fuel rest

/-- `TiktokenTokenizer::encode`. -/
def encode (vocab : Vocab) (text : Str) : List Nat :=
  encodeAux vocab text.length text

/-- `TiktokenTokenizer::count_tokens`. -/
def count_tokens (vocab : Vocab) (text : Str) : Nat :=
  (encode vocab text).length

/-- Repeated `std::getline` on an `istringstream` over `s`: lines are maximal
runs not containing a newline; a trailing newline does not produce an extra
empty line, and the empty string yields no lines at all. -/
def getlinesAux : Nat → Str → List Str
  | _, [] => []
  | 0, _ :: _ => []
  | fuel + 1, c :: cs =>
    let line := (c :: cs).takeWhile (fun ch => !(ch == '\n'))
    line :: getlinesAux fuel ((c :: cs).drop (line.length + 1))

/-- `getlines s`: every iteration consumes at least one byte, so `s.length`
is sufficient fuel. -/
def getlines (s : Str) : List Str := getlinesAux s.length s

/-- `::isspace` in the default locale: space, tab, newline, vertical tab,
form feed, carriage return. -/
def isCppSpace (c : Char) : Bool :=
  c == ' ' || c == '\t' || c == '\n' ||
  c == Char.ofNat 11 || c == Char.ofNat 12 || c == Char.ofNat 13

/-- The line annotation tags of `hierarchical_chunker.cpp`. -/
inductive LineType where
  | NORMAL
  | MAJOR_HEADING
  | MINOR_HEADING
  | LIST_ITEM
  | BLANK
  | CODE_BLOCK
deriving DecidableEq, Repr

/-- The markdown-heading regex `^(#+)\s+(.+)$`: at least one leading `#`,
then at least one whitespace byte, then at least one further byte (lines are
newline-free, so `.` matches every remaining byte).  Returns the heading
level (the number of leading `#`) on a match. -/
def headingMatch (line : Str) : Option Nat :=
  let level := (line.takeWhile (fun c => c == '#')).length
  match line.drop level with
  | r1 :: _ :: _ => if 1 ≤ level ∧ isCppSpace r1 then some level else none
  | _ => none

/-- The bullet byte class `[-*+•]` of the list regex. -/
def isBulletChar (c : Char) : Bool :=
  c == '-' || c == '*' || c == '+' || c == '•'

/-- The list-item regex `^\s*[-*+•]\s+(.+)$|^\s*\d+\.\s+(.+)$`. -/
def listMatch (line : Str) : Bool :=
  let rest := line.dropWhile isCppSpace
  (match rest with
   | b :: r1 :: _ :: _ => isBulletChar b && isCppSpace r1
   | _ => false) ||
  (let ds := rest.takeWhile (fun c => c.isDigit)
   decide (ds ≠ []) &&
   (match rest.drop ds.length with
    | d :: r1 :: _ :: _ => d == '.' && isCppSpace r1
    | _ => false))

/-- The backtick byte, written via its code to keep the source plain. -/
def tick : Char := Char.ofNat 96

/-- `line.find("\x60\x60\x60") != npos`: the line contains a triple-backtick
code fence. -/
def hasTripleTick : Str → Bool
  | [] => false
  | c :: rest => (c == tick && rest.take 2 == [tick, tick]) || hasTripleTick rest

/-- The code-block heuristic: a fence anywhere in the line, or the line
starts with two spaces. -/
def isCodeLine (line : Str) : Bool :=
  hasTripleTick line || line.take 2 == [' ', ' ']

/-- `detect_line_type`: blank, markdown heading (`#`/`##` major, `###`+
minor), list item, code block, else normal; second component is the heading
level (0 for non-headings). -/
def detect_line_type (line : Str) : LineType × Nat :=
  if line.all isCppSpace then (.BLANK, 0)
  else
    match headingMatch line with
    | some level =>
      if level ≤ 2 then (.MAJOR_HEADING, level) else (.MINOR_HEADING, level)
    | none =>
      if listMatch line then (.LIST_ITEM, 0)
      else if isCodeLine line then (.CODE_BLOCK, 0)
      else (.NORMAL, 0)

/-- `AnnotatedLine`. -/
structure AnnotatedLine where
  text : Str
  type : LineType
  tokens : Nat
  page : Int
  heading_level : Nat := 0
deriving DecidableEq, Repr

/-- Pass 1, `annotate_lines`: split every page on newlines and annotate each
line with its type, token count, source page and heading level. -/
def annotate_lines (vocab : Vocab) (pages : List (Str × Int)) : List AnnotatedLine :=
  (pages.map (fun pt =>
    (getlines pt.1).map (fun line =>
      let tl := detect_line_type line
      { text := line
        type := tl.1
        tokens := count_tokens vocab line
        page := pt.2
        heading_level := tl.2 }))).flatten

/-- `std::set<int>::insert`: the page set as a sorted duplicate-free list. -/
def setInsert (x : Int) : List Int → List Int
  | [] => [x]
  | y :: ys => if x < y then x :: y :: ys else if x = y then y :: ys else y :: setInsert x ys

/-- `SemanticUnit`: a group of consecutive annotated lines.
`max_heading_level` starts at the sentinel 999 and, in the source, is only
lowered by MAJOR headings. -/
structure SemanticUnit where
  lines : List AnnotatedLine := []
  total_tokens : Nat := 0
  pages : List Int := []
  has_major_heading : Bool := false
  max_heading_level : Nat := 999
deriving DecidableEq, Repr

/-- `SemanticUnit::add_line`. -/
def SemanticUnit.add_line (u : SemanticUnit) (line : AnnotatedLine) : SemanticUnit :=
  { u with
    lines := u.lines ++ [line]
    total_tokens := u.total_tokens + line.tokens
    pages := setInsert line.page u.pages
    has_major_heading := u.has_major_heading || decide (line.type = .MAJOR_HEADING)
    max_heading_level :=
      if line.type = .MAJOR_HEADING then min u.max_heading_level line.heading_level
      else u.max_heading_level }

/-- `SemanticUnit::get_text`: every line followed by a newline. -/
def SemanticUnit.get_text (u : SemanticUnit) : Str :=
  u.lines.foldl (fun acc line => acc ++ line.text ++ ['\n']) []

/-- The loop body of pass 2, `create_semantic_units`: break before headings
(with one line of lookahead across a blank), drop blank lines at unit
boundaries. -/
def createSemanticUnitsAux : List AnnotatedLine → SemanticUnit → List SemanticUnit → List SemanticUnit
  | [], current, acc => if current.lines.isEmpty then acc else acc ++ [current]
  | line :: rest, current, acc =>
    let shouldBreak : Bool :=
      decide (line.type = .MAJOR_HEADING) || decide (line.type = .MINOR_HEADING) ||
      (decide (line.type = .BLANK) &&
        match rest with
        | next :: _ => decide (next.type = .MAJOR_HEADING) || decide (next.type = .MINOR_HEADING)
        | [] => false)
    let pushed := shouldBreak && !current.lines.isEmpty
    let acc' := if pushed then acc ++ [current] else acc
    let current' : SemanticUnit := if pushed then {} else current
    let current'' :=
      if decide (line.type = .BLANK) && current'.lines.isEmpty then current'
      else current'.add_line line
    createSemanticUnitsAux rest current'' acc'

/-- Pass 2. -/
def create_semantic_units (lines : List AnnotatedLine) : List SemanticUnit :=
  createSemanticUnitsAux lines {} []

/-- `Chunk`; `start_page`/`end_page` start at `-1`. -/
structure Chunk where
  text : Str := []
  tokens : Nat := 0
  start_page : Int := -1
  end_page : Int := -1
  overlap_text : Str := []
  overlap_tokens : Nat := 0
  has_major_heading : Bool := false
  min_heading_level : Nat := 999
deriving DecidableEq, Repr

/-- The body of pass 3 that appends one unit to the growing chunk. -/
def cicAddUnit (c : Chunk) (u : SemanticUnit) : Chunk :=
  let c1 : Chunk := { c with text := c.text ++ u.get_text, tokens := c.tokens + u.total_tokens }
  let c2 : Chunk :=
    match u.pages with
    | [] => c1
    | p :: ps =>
      { c1 with
        start_page := if c1.start_page = -1 then p else c1.start_page
        end_page := (p :: ps).getLast (List.cons_ne_nil p ps) }
  if u.has_major_heading then
    { c2 with
      has_major_heading := true
      min_heading_level := min c2.min_heading_level u.max_heading_level }
  else c2

/-- The loop of pass 3, `create_initial_chunks`: greedy packing of units up
to `maxT`, flushing before a unit that would overflow a non-empty chunk. -/
def cicAux (maxT : Nat) : List SemanticUnit → Chunk → List Chunk → List Chunk
  | [], current, acc => if current.text.isEmpty then acc else acc ++ [current]
  | u :: rest, current, acc =>
    let flush := !current.text.isEmpty && decide (current.tokens + u.total_tokens > maxT)
    let acc' := if flush then acc ++ [current] else acc
    let current' : Chunk := if flush then {} else current
    cicAux maxT rest (cicAddUnit current' u) acc'

/-- Pass 3. -/
def create_initial_chunks (units : List SemanticUnit) (maxT : Nat) : List Chunk :=
  cicAux maxT units {} []

/-- The trimming loop of pass 4: drop 10 front bytes while the re-measured
count still exceeds the overlap budget and more than 10 bytes remain. -/
def trimOverlapAux (vocab : Vocab) (overlapT : Nat) : Nat → Str → Str
  | 0, ot => ot
  | fuel + 1, ot =>
    if count_tokens vocab ot > overlapT ∧ ot.length > 10 then
      trimOverlapAux vocab overlapT fuel (ot.drop 10)
    else ot

/-- `trimOverlap`: every iteration drops 10 bytes of a string longer than
10 bytes, so `ot.length` is sufficient fuel. -/
def trimOverlap (vocab : Vocab) (overlapT : Nat) (ot : Str) : Str :=
  trimOverlapAux vocab overlapT ot.length ot

/-- The loop of pass 4 over chunks 1..n-1; `prev` is the already-processed
predecessor (whose `text` the source reads — only overlap fields are ever
modified, never `text`). -/
def addOverlapAux (vocab : Vocab) (overlapT : Nat) : Chunk → List Chunk → List Chunk
  | _, [] => []
  | prev, c :: rest =>
    let prevText := prev.text
    let charsToTake := min prevText.length (overlapT * 5)
    let ot0 := prevText.drop (prevText.length - charsToTake)
    let ot := trimOverlap vocab overlapT ot0
    let c' : Chunk := { c with overlap_text := ot, overlap_tokens := count_tokens vocab ot }
    c' :: addOverlapAux vocab overlapT c' rest

/-- Pass 4, `add_overlap`: fills `overlap_text`/`overlap_tokens` of every
chunk after the first from the tail of its predecessor's text. -/
def add_overlap (vocab : Vocab) (chunks : List Chunk) (overlapT : Nat) : List Chunk :=
  match chunks with
  | [] => []
  | c0 :: rest => c0 :: addOverlapAux vocab overlapT c0 rest

/-- The merge used by passes 5 and 7: concatenate texts, add token counts,
extend the page range, and inherit heading metadata from `next` when it has
a major heading. -/
def mergeChunkPair (current next : Chunk) : Chunk :=
  { current with
    text := current.text ++ next.text
    tokens := current.tokens + next.tokens
    end_page := next.end_page
    has_major_heading := current.has_major_heading || next.has_major_heading
    min_heading_level :=
      if next.has_major_heading then min current.min_heading_level next.min_heading_level
      else current.min_heading_level }

/-- The inner while-loop of pass 5: greedily absorb following chunks while
`current` is undersized, with the 10% slack rule and the major-heading
veto. -/
def msForward (minT maxT : Nat) : Chunk → List Chunk → Chunk × List Chunk
  | current, [] => (current, [])
  | current, next :: rest =>
    if current.tokens < minT then
      let combined := current.tokens + next.tokens
      let shouldMerge :=
        (decide (combined ≤ maxT) ||
          (decide (10 * combined ≤ 11 * maxT) && decide (next.tokens < minT / 2))) &&
        !(next.has_major_heading && decide (next.min_heading_level ≤ 2) &&
          decide (current.tokens ≥ minT / 2))
      if shouldMerge then msForward minT maxT (mergeChunkPair current next) rest
      else (current, next :: rest)
    else (current, next :: rest)

/-- The outer loop of pass 5; each iteration consumes at least the head
chunk, so the list length is sufficient fuel. -/
def msLoop (minT maxT : Nat) : Nat → List Chunk → List Chunk
  | _, [] => []
  | 0, l => l
  | fuel + 1, c :: rest =>
    let fw := msForward minT maxT c rest
    fw.1 :: msLoop minT maxT fuel fw.2

/-- Pass 5, `merge_small_chunks_hierarchically`. -/
def merge_small_chunks_hierarchically (minT maxT : Nat) (chunks : List Chunk) : List Chunk :=
  msLoop minT maxT chunks.length chunks

/-- The per-line loop of pass 6: pack lines into sub-chunks; a flush happens
only when the next line would overflow AND the accumulator already holds at
least 0.8 · maxT tokens (the integer form of `tokens >= max_tokens * 0.8`). -/
def socLines (vocab : Vocab) (maxT : Nat) (origStart origEnd : Int) :
    List Str → Chunk → List Chunk → List Chunk
  | [], current, acc =>
    if current.text.isEmpty then acc else acc ++ [{ current with end_page := origEnd }]
  | line :: rest, current, acc =>
    let lt := count_tokens vocab line
    let flush := !current.text.isEmpty && decide (current.tokens + lt > maxT) &&
      decide (5 * current.tokens ≥ 4 * maxT)
    let acc' := if flush then acc ++ [{ current with end_page := origEnd }] else acc
    let current' : Chunk := if flush then { start_page := origStart } else current
    socLines vocab maxT origStart origEnd rest
      { current' with text := current'.text ++ line ++ ['\n'], tokens := current'.tokens + lt }
      acc'

/-- Pass 6, `split_oversized_chunks`: chunks at or below `maxT` pass through;
oversized chunks are re-split line by line (token counts re-measured per
line). -/
def split_oversized_chunks (vocab : Vocab) (maxT : Nat) (chunks : List Chunk) : List Chunk :=
  chunks.foldl (fun result chunk =>
    if chunk.tokens ≤ maxT then result ++ [chunk]
    else
      socLines vocab maxT chunk.start_page chunk.end_page (getlines chunk.text)
        { start_page := chunk.start_page } result) []

/-- The inner while-loop of pass 7: forward merges under the strict
`maxT` bound while `current` is undersized. -/
def fmForward (minT maxT : Nat) : Chunk → List Chunk → Chunk × List Chunk
  | current, [] => (current, [])
  | current, next :: rest =>
    if current.tokens < minT ∧ current.tokens + next.tokens ≤ maxT then
      fmForward minT maxT (mergeChunkPair current next) rest
    else (current, next :: rest)

/-- The outer loop of pass 7: forward-merge, then try to merge a still-small
`current` backward into the last emitted chunk (again under the strict
bound), else emit it. -/
def fmLoop (minT maxT : Nat) : Nat → List Chunk → List Chunk → List Chunk
  | _, finalChunks, [] => finalChunks
  | 0, finalChunks, _ :: _ => finalChunks
  | fuel + 1, finalChunks, c :: rest =>
    let fw := fmForward minT maxT c rest
    let current := fw.1
    match finalChunks.getLast? with
    | some prev =>
      if current.tokens < minT ∧ prev.tokens + current.tokens ≤ maxT then
        fmLoop minT maxT fuel (finalChunks.dropLast ++ [mergeChunkPair prev current]) fw.2
      else fmLoop minT maxT fuel (finalChunks ++ [current]) fw.2
    | none => fmLoop minT maxT fuel (finalChunks ++ [current]) fw.2

/-- Pass 7, `final_merge_pass`; each outer iteration consumes at least the
head chunk, so the list length is sufficient fuel. -/
def final_merge_pass (minT maxT : Nat) (chunks : List Chunk) : List Chunk :=
  if chunks.isEmpty then chunks else fmLoop minT maxT chunks.length [] chunks

/-- `create_hierarchical_chunks_internal`: drop empty pages, run passes 1–7,
then re-measure every chunk's token count against the tokenizer. -/
def create_hierarchical_chunks_internal (vocab : Vocab) (pages : List (Str × Int))
    (maxT overlapT minT : Nat) : List Chunk :=
  let nonEmptyPages := pages.filter (fun p => !p.1.isEmpty)
  if nonEmptyPages.isEmpty then []
  else
    let annotated := annotate_lines vocab nonEmptyPages
    let units := create_semantic_units annotated
    let chunks0 := create_initial_chunks units maxT
    let chunks1 := add_overlap vocab chunks0 overlapT
    let chunks2 := merge_small_chunks_hierarchically minT maxT chunks1
    let chunks3 := split_oversized_chunks vocab maxT chunks2
    let chunks4 := final_merge_pass minT maxT chunks3
    chunks4.map (fun c => { c with tokens := count_tokens vocab c.text })

/-- `PageResult`; `content` is the JSON page content reduced to its
`blocks`, each block being the list of its lines' texts (the only part the
chunker reads). -/
structure PageResult where
  page_number : Int
  content : List (List Str) := []
  error : Str := []
  success : Bool := true
deriving DecidableEq, Repr

/-- The batch loop of `FastPdfParser::Impl::parse_streaming`: submit a batch
of `bs + 1` page tasks (the callers use `batch_size = 10`, i.e. `bs = 9`),
await them in page order and invoke the callback on each result.  The
callback's second component models the `bool` value that the caller's lambda
returns; it is DISCARDED here, exactly as in the source, because
`PageCallback = std::function<void(PageResult)>` returns `void`. -/
def psBatches {σ : Type} (bs : Nat) (cb : σ → PageResult → σ × Bool) :
    Nat → List PageResult → σ → σ
  | _, [], s => s
  | 0, _ :: _, s => s
  | fuel + 1, r :: l, s =>
    let batch := (r :: l).take (bs + 1)
    let s' := batch.foldl (fun s t => (cb s t).1) s
    psBatches bs cb fuel ((r :: l).drop (bs + 1)) s'

/-- `FastPdfParser::Impl::parse_streaming`, given the per-page extraction
results the worker tasks would produce; every batch consumes at least one
result, so the result-list length is sufficient fuel. -/
def parse_streaming {σ : Type} (bs : Nat) (results : List PageResult)
    (cb : σ → PageResult → σ × Bool) (s : σ) : σ :=
  psBatches bs cb results.length results s

/-- The page-text assembly inside `HierarchicalChunker::chunk_file`'s
callback: all block lines joined by single newlines. -/
def pageTextOfContent (blocks : List (List Str)) : Str :=
  blocks.foldl (fun acc ls =>
    ls.foldl (fun acc line => (if acc.isEmpty then acc else acc ++ ['\n']) ++ line) acc) []

/-- The callback lambda of `HierarchicalChunker::chunk_file`: skip failed
pages, append the page text, and return `false` (stop) once `page_limit`
successful pages have been seen.  State: `(page_count, pages)`. -/
def chunkFileCallback (pageLimit : Int) (st : Nat × List (Str × Int)) (r : PageResult) :
    (Nat × List (Str × Int)) × Bool :=
  if !r.success then (st, true)
  else
    let pageCount := st.1 + 1
    let pageText := pageTextOfContent r.content
    let pages := st.2 ++ [(pageText, r.page_number)]
    ((pageCount, pages), !(decide (pageLimit > 0) && decide ((pageCount : Int) ≥ pageLimit)))

/-- `ChunkResult`.  Modelled from the spec: the struct declaration is not
under `src/` (only its uses in `chunk_file` and the bindings are); fields
follow §6 of the spec and the assignments in `chunk_file`. -/
structure ChunkResult where
  text : Str := []
  token_count : Nat := 0
  start_page : Int := -1
  end_page : Int := -1
  has_major_heading : Bool := false
  min_heading_level : Nat := 999
deriving DecidableEq, Repr

/-- `ChunkOptions`.  Modelled from the spec (§6): the struct declaration is
not under `src/`; defaults `{512, 150, 0, 0}`. -/
structure ChunkOptions where
  max_tokens : Nat := 512
  min_tokens : Nat := 150
  overlap_tokens : Nat := 0
  thread_count : Nat := 0
deriving DecidableEq, Repr

/-- `ChunkingResult`.  Modelled from the spec (§6) and the assignments in
`chunk_file`; the struct declaration is not under `src/`. -/
structure ChunkingResult where
  chunks : List ChunkResult := []
  total_pages : Nat := 0
  total_chunks : Nat := 0
  processing_time_ms : Nat := 0
  error : Str := []
deriving DecidableEq, Repr

/-- The field-by-field copy from `Chunk` to `ChunkResult` in `chunk_file`. -/
def toChunkResult (c : Chunk) : ChunkResult :=
  { text := c.text
    token_count := c.tokens
    start_page := c.start_page
    end_page := c.end_page
    has_major_heading := c.has_major_heading
    min_heading_level := c.min_heading_level }

/-- `HierarchicalChunker::chunk_file`.  `pdfOutcome` is the outcome of
opening/streaming the document (`.error e` models the `std::exception` with
message `e` thrown by `parse_streaming` when the file cannot be processed);
`elapsedMs` is the measured wall-clock duration, which the source assigns to
`processing_time_ms` after the try/catch, on every path. -/
def chunk_file (vocab : Vocab) (opts : ChunkOptions)
    (pdfOutcome : Except Str (List PageResult)) (pageLimit : Int)
    (elapsedMs : Nat) : ChunkingResult :=
  match pdfOutcome with
  | .error e =>
    { error := str "Error chunking PDF: " ++ e
      processing_time_ms := elapsedMs }
  | .ok results =>
    let st := parse_streaming 9 results (chunkFileCallback pageLimit) (0, [])
    let chunks := create_hierarchical_chunks_internal vocab st.2
      opts.max_tokens opts.overlap_tokens opts.min_tokens
    { chunks := chunks.map toChunkResult
      total_pages := st.1
      total_chunks := chunks.length
      processing_time_ms := elapsedMs
      error := [] }

/-! ### Specification-side vocabulary for the theorems -/

/-- The text obtained by joining a list of (newline-free) lines, each
followed by a newline — the shape in which both pass 3 and pass 6 build
chunk texts. -/
def linesJoin (ls : List Str) : Str := (ls.map (fun l => l ++ ['\n'])).flatten

/-- The sum of the per-line token counts of a list of lines. -/
def tokensSum (vocab : Vocab) (ls : List Str) : Nat :=
  (ls.map (count_tokens vocab)).sum

/-- A chunk produced by the pass-6 split that overflowed on its final line:
its text is a newline-join of lines, its running count is the sum of their
per-line counts, and the count without the last line is still below the
0.8 · maxT flush threshold. -/
def OversplitTail (vocab : Vocab) (maxT : Nat) (c : Chunk) : Prop :=
  ∃ ls ℓ, c.text = linesJoin (ls ++ [ℓ]) ∧
    c.tokens = tokensSum vocab (ls ++ [ℓ]) ∧
    5 * tokensSum vocab ls < 4 * maxT

/-- The smallest `heading_level` among the MAJOR-heading lines of `ls`, or
the sentinel 999 when there is none — the quantity the source actually
tracks in `max_heading_level` / `min_heading_level`. -/
def majorLinesMin (ls : List AnnotatedLine) : Nat :=
  ((ls.filter (fun l => decide (l.type = .MAJOR_HEADING))).map (·.heading_level)).foldr min 999

/-- Does `ls` contain a MAJOR-heading line? -/
def hasMajorLine (ls : List AnnotatedLine) : Bool :=
  ls.any (fun l => decide (l.type = .MAJOR_HEADING))

/-- The concatenated text of a segment of semantic units. -/
def unitsText (seg : List SemanticUnit) : Str :=
  (seg.map SemanticUnit.get_text).flatten

/-- The concatenated lines of a segment of semantic units. -/
def unitsLines (seg : List SemanticUnit) : List AnnotatedLine :=
  (seg.map SemanticUnit.lines).flatten

/-- A semantic unit whose derived heading metadata agrees with its lines;
pass 2 only produces such units. -/
def UnitWF (u : SemanticUnit) : Prop :=
  u.max_heading_level = majorLinesMin u.lines ∧
  u.has_major_heading = hasMajorLine u.lines

/-- Invariant of the pass-6 accumulator chunk: its text and running count
come from a list of already-consumed lines, and that list is empty, within
budget, or over budget only by its final line. -/
def SplitAccInv (vocab : Vocab) (maxT : Nat) (c : Chunk) : Prop :=
  ∃ ls : List Str, c.text = linesJoin ls ∧ c.tokens = tokensSum vocab ls ∧
    (ls = [] ∨ c.tokens ≤ maxT ∨
      ∃ init ℓ, ls = init ++ [ℓ] ∧ 5 * tokensSum vocab init < 4 * maxT)

/-! ### Helper lemmas -/

theorem tryLens_bounds (vocab : Vocab) (text : Str) :
    ∀ len t l, tryLens vocab text len = some (t, l) →
      1 ≤ l ∧ l ≤ len ∧ vocabFind vocab (text.take l) = some t := by
  intro len
  induction len with
  | zero => intro t l h; simp [tryLens] at h
  | succ n ih =>
    intro t l h
    rw [tryLens] at h
    cases hv : vocabFind vocab (text.take (n + 1)) with
    | some t0 =>
      rw [hv] at h
      cases h
      exact ⟨Nat.succ_le_succ (Nat.zero_le n), Nat.le_refl _, hv⟩
    | none =>
      rw [hv] at h
      obtain ⟨h1, h2, h3⟩ := ih t l h
      exact ⟨h1, Nat.le_succ_of_le h2, h3⟩

theorem msForward_rest_length (minT maxT : Nat) :
    ∀ l current, (msForward minT maxT current l).2.length ≤ l.length := by
  intro l
  induction l with
  | nil => intro current; simp [msForward]
  | cons next rest ih =>
    intro current
    rw [msForward]
    by_cases h1 : current.tokens < minT
    · simp only [if_pos h1]
      by_cases h2 :
          ((decide (current.tokens + next.tokens ≤ maxT) ||
            (decide (10 * (current.tokens + next.tokens) ≤ 11 * maxT) &&
              decide (next.tokens < minT / 2))) &&
          !(next.has_major_heading && decide (next.min_heading_level ≤ 2) &&
            decide (current.tokens ≥ minT / 2))) = true
      · simp only [h2, if_pos]
        exact Nat.le_succ_of_le (ih _)
      · simp only [h2]
        simp
    · simp [if_neg h1]

theorem fmForward_rest_length (minT maxT : Nat) :
    ∀ l current, (fmForward minT maxT current l).2.length ≤ l.length := by
  intro l
  induction l with
  | nil => intro current; simp [fmForward]
  | cons next rest ih =>
    intro current
    rw [fmForward]
    split
    · exact Nat.le_succ_of_le (ih _)
    · simp

theorem fmForward_rest_sub (minT maxT : Nat) :
    ∀ l current x, x ∈ (fmForward minT maxT current l).2 → x ∈ l := by
  intro l
  induction l with
  | nil => intro current x hx; simp [fmForward] at hx
  | cons next rest ih =>
    intro current x hx
    rw [fmForward] at hx
    split at hx
    · exact List.mem_cons_of_mem next (ih _ x hx)
    · exact hx

theorem fmForward_tokens_ge (minT maxT : Nat) :
    ∀ l current, current.tokens ≤ (fmForward minT maxT current l).1.tokens := by
  intro l
  induction l with
  | nil => intro current; simp [fmForward]
  | cons next rest ih =>
    intro current
    rw [fmForward]
    split
    · calc current.tokens ≤ (mergeChunkPair current next).tokens := by
            simp [mergeChunkPair]
        _ ≤ _ := ih _
    · simp

theorem fmForward_result (minT maxT : Nat) :
    ∀ l current, (fmForward minT maxT current l).1 = current ∨
      (fmForward minT maxT current l).1.tokens ≤ maxT := by
  intro l
  induction l with
  | nil => intro current; left; simp [fmForward]
  | cons next rest ih =>
    intro current
    rw [fmForward]
    split
    · rename_i hcond
      rcases ih (mergeChunkPair current next) with h | h
      · right
        rw [h]
        simpa [mergeChunkPair] using hcond.2
      · right; exact h
    · left; rfl

theorem fmForward_stop (minT maxT : Nat) :
    ∀ l current, (fmForward minT maxT current l).1.tokens < minT →
      ∀ n, ((fmForward minT maxT current l).2).head? = some n →
        maxT < (fmForward minT maxT current l).1.tokens + n.tokens := by
  intro l
  induction l with
  | nil => intro current _ n hn; simp [fmForward] at hn
  | cons next rest ih =>
    intro current hcur n hn
    rw [fmForward] at hcur hn ⊢
    by_cases hcond : current.tokens < minT ∧ current.tokens + next.tokens ≤ maxT
    · rw [if_pos hcond] at hcur hn ⊢
      exact ih _ hcur n hn
    · rw [if_neg hcond] at hcur hn ⊢
      simp only [List.head?_cons, Option.some.injEq] at hn
      simp only [] at hcur ⊢
      subst hn
      have h2 : ¬(current.tokens + next.tokens ≤ maxT) := fun hle => hcond ⟨hcur, hle⟩
      omega

theorem create_internal_tokens (vocab : Vocab) (pages : List (Str × Int))
    (maxT overlapT minT : Nat) :
    ∀ c ∈ create_hierarchical_chunks_internal vocab pages maxT overlapT minT,
      c.tokens = count_tokens vocab c.text := by
  intro c hc
  simp only [create_hierarchical_chunks_internal] at hc
  split at hc
  · simp at hc
  · obtain ⟨c0, _, rfl⟩ := List.mem_map.mp hc
    rfl

/-! ### Claim theorems -/

/-- C1, counterexample.  A single semantic unit of two lines (a 9-byte
heading and a 12-byte paragraph line), empty vocabulary (so every byte is
one token), `max_tokens = 12`, `min_tokens = 6`, `overlap_tokens = 0`.  The
full pipeline returns one chunk whose final `token_count` is 23 > 12 even
though the chunk holds TWO lines whose own counts (9 and 12) are both within
`max_tokens`: pass 6 appends the overflowing line without flushing because
the accumulator (9 tokens) is below 0.8 · 12.  This refutes the claim that
any over-`max_tokens` chunk consists of exactly one line that alone exceeds
`max_tokens`. -/
theorem C1_upper_bound_counterexample :
    (create_hierarchical_chunks_internal []
        [(str "# aaaaaaa" ++ '\n' :: List.replicate 12 'b', 0)] 12 0 6).map
      (fun c => (c.tokens, (getlines c.text).map (count_tokens []))) = [(23, [9, 12])] ∧
    12 < 23 ∧ 9 ≤ 12 ∧ 12 ≤ 12 ∧ 0 < 6 ∧ 6 ≤ 12 ∧ 0 < 12 := by decide

/-- C2, counterexample.  Three single-line units of 11, 3 and 11 tokens
(empty vocabulary), `max_tokens = 12`, `min_tokens = 6`: the middle chunk
ends the pipeline with `token_count = 4 < min_tokens` although it is neither
the last nor the sole chunk — its neighbours are too large to absorb it in
either direction (11 + 3 > 12 on both sides during pass 7). -/
theorem C2_lower_bound_counterexample :
    (create_hierarchical_chunks_internal []
        [(str "# aaaaaaaaa" ++ '\n' :: str "# b" ++ '\n' :: str "# ccccccccc", 0)] 12 0 6).map
      (fun c => c.tokens) = [12, 4, 12] ∧
    4 < 6 ∧ 0 < 6 ∧ 6 ≤ 12 ∧ 0 < 12 := by decide

/-- C3: the streaming dispatcher never honours the callback's stop request.
`PageCallback` is `std::function<void(PageResult)>`, so the boolean produced
by the caller's lambda is discarded and every batch is submitted.  With 25
pages, `batch_size = 10` (`bs = 9`) and a counting callback that declines
from its 7th invocation onward, all 25 callbacks still happen —
contradicting the claimed bound of `7 + batch_size - 1 = 16`. -/
theorem C3_stop_request_ignored :
    parse_streaming 9
        ((List.range 25).map (fun i => ({ page_number := i, content := [] } : PageResult)))
        (fun (n : Nat) _ => (n + 1, decide (n + 1 < 7))) 0 = 25 ∧
    ¬(25 ≤ 7 + (10 - 1)) := by decide

/-- C4: `page_limit` has no effect on the pages consumed.  The `chunk_file`
callback pushes every successful page and only then asks to stop, and the
dispatcher ignores the request (see C3), so with `page_limit = 1` and two
successful pages the chunker input still contains both pages. -/
theorem C4_page_limit_ignored :
    (parse_streaming 9
        [{ page_number := 0, content := [[str "alpha"]] },
         { page_number := 1, content := [[str "beta"]] }]
        (chunkFileCallback 1) ((0 : Nat), ([] : List (Str × Int)))).2 =
      [(str "alpha", 0), (str "beta", 1)] ∧
    ¬((2 : Nat) ≤ 1) := by decide

/-- C5, counterexample.  `add_overlap` with `overlap_tokens = 2` on two
chunks (empty vocabulary): the second chunk's `text` is left exactly as it
was — no continuation marker (which would start with a bracket) is
prepended — and the selected suffix stored in `overlap_text` re-measures to
10 tokens, which exceeds `overlap_tokens = 2` because the trimming loop
stops once at most 10 bytes remain. -/
theorem C5_overlap_counterexample :
    (add_overlap []
        [{ text := str "hello world", tokens := 11 },
         { text := str "next", tokens := 4 }] 2).map
      (fun c => (c.text, c.overlap_text, c.overlap_tokens)) =
      [(str "hello world", [], 0), (str "next", str "ello world", 10)] ∧
    ¬(10 ≤ 2) ∧ (str "next").take 1 ≠ ['['] ∧ (0 : Nat) < 2 := by decide

/-- C8, counterexample.  With the vocabulary containing exactly the tokens
"xy" and "yz"·10, greedy longest-match gives `count "x" = 1` and
`count ("yz"·10) = 1`, but on the concatenation the leading "xy" match
shifts the phase and every remaining byte falls back individually:
`count ("x" ++ "yz"·10) = 20 > 1 + 1 + 1`.  The vocabulary data itself is
not under `src/`, so this instantiates the modelled (parametric)
vocabulary. -/
theorem C8_subadditivity_counterexample :
    count_tokens [(str "xy", 1000), (str "yzyzyzyzyzyzyzyzyzyz", 1001)] (str "x") = 1 ∧
    count_tokens [(str "xy", 1000), (str "yzyzyzyzyzyzyzyzyzyz", 1001)]
      (str "yzyzyzyzyzyzyzyzyzyz") = 1 ∧
    count_tokens [(str "xy", 1000), (str "yzyzyzyzyzyzyzyzyzyz", 1001)]
      (str "x" ++ str "yzyzyzyzyzyzyzyzyzyz") = 20 ∧
    ¬(20 ≤ 1 + 1 + 1) := by decide

/-- C6: token-count authority.  Every chunk returned by `chunk_file` reports
`token_count = count_tokens(text)` bit-exactly: the pipeline's final step
re-measures every chunk's text once, and `chunk_file` copies that value. -/
theorem C6_token_count_authority (vocab : Vocab) (opts : ChunkOptions)
    (pdfOutcome : Except Str (List PageResult)) (pageLimit : Int) (elapsedMs : Nat)
    (cr : ChunkResult)
    (hmem : cr ∈ (chunk_file vocab opts pdfOutcome pageLimit elapsedMs).chunks) :
    cr.token_count = count_tokens vocab cr.text := by
  cases pdfOutcome with
  | error e => simp [chunk_file] at hmem
  | ok results =>
    simp only [chunk_file] at hmem
    obtain ⟨c0, hc0, rfl⟩ := List.mem_map.mp hmem
    have := create_internal_tokens vocab _ opts.max_tokens opts.overlap_tokens opts.min_tokens
      c0 hc0
    simpa [toChunkResult] using this

/-- Witness for C6 at a concrete one-page document. -/
theorem C6_token_count_authority_witness :
    ({ text := str "# t\n", token_count := 4, start_page := 0, end_page := 0,
       has_major_heading := true, min_heading_level := 1 } : ChunkResult) ∈
        (chunk_file [] {} (.ok [{ page_number := 0, content := [[str "# t"]] }]) (-1) 0).chunks ∧
    (4 : Nat) = count_tokens [] (str "# t\n") :=
  ⟨by decide,
   C6_token_count_authority [] {} (.ok [{ page_number := 0, content := [[str "# t"]] }]) (-1) 0
     { text := str "# t\n", token_count := 4, start_page := 0, end_page := 0,
       has_major_heading := true, min_heading_level := 1 } (by decide)⟩

/-- C9: determinism.  The chunking pipeline is embedded as a pure function
of the ordered page list and the options (all seven passes run sequentially
after collection, and the tokenizer is stateless given the vocabulary), so
two runs on equal inputs yield equal chunk sequences. -/
theorem C9_deterministic (vocab : Vocab) (maxT overlapT minT : Nat)
    (pages₁ pages₂ : List (Str × Int)) (h : pages₁ = pages₂) :
    create_hierarchical_chunks_internal vocab pages₁ maxT overlapT minT =
      create_hierarchical_chunks_internal vocab pages₂ maxT overlapT minT := by
  rw [h]

/-- Witness for C9: two runs on the same concrete page list coincide. -/
theorem C9_deterministic_witness :
    create_hierarchical_chunks_internal [] [(str "# t", 0)] 512 0 150 =
      create_hierarchical_chunks_internal [] [(str "# t", 0)] 512 0 150 :=
  C9_deterministic [] 512 0 150 [(str "# t", 0)] [(str "# t", 0)] rfl

/-- C10: `chunk_file` is total on its embedded inputs, always populates
`processing_time_ms` (the source assigns it after the try/catch on every
path), and captures a streaming failure in the result's `error` field with
no chunks. -/
theorem C10_no_exception (vocab : Vocab) (opts : ChunkOptions)
    (pdfOutcome : Except Str (List PageResult)) (pageLimit : Int) (elapsedMs : Nat) :
    (chunk_file vocab opts pdfOutcome pageLimit elapsedMs).processing_time_ms = elapsedMs ∧
    ∀ e, pdfOutcome = .error e →
      (chunk_file vocab opts pdfOutcome pageLimit elapsedMs).error =
          str "Error chunking PDF: " ++ e ∧
        (chunk_file vocab opts pdfOutcome pageLimit elapsedMs).chunks = [] := by
  cases pdfOutcome with
  | error e => exact ⟨rfl, fun e' he' => by cases he'; exact ⟨rfl, rfl⟩⟩
  | ok results => exact ⟨rfl, fun e' he' => by cases he'⟩

/-- Witness for C10 at a concrete failing open. -/
theorem C10_no_exception_witness :
    (chunk_file [] {} (.error (str "boom")) (-1) 5).processing_time_ms = 5 ∧
    (chunk_file [] {} (.error (str "boom")) (-1) 5).error =
      str "Error chunking PDF: " ++ str "boom" ∧
    (chunk_file [] {} (.error (str "boom")) (-1) 5).chunks = [] :=
  ⟨(C10_no_exception [] {} (.error (str "boom")) (-1) 5).1,
   ((C10_no_exception [] {} (.error (str "boom")) (-1) 5).2 (str "boom") rfl).1,
   ((C10_no_exception [] {} (.error (str "boom")) (-1) 5).2 (str "boom") rfl).2⟩

theorem trimOverlapAux_suffix (vocab : Vocab) (overlapT : Nat) :
    ∀ fuel ot, trimOverlapAux vocab overlapT fuel ot <:+ ot := by
  intro fuel
  induction fuel with
  | zero => intro ot; exact List.suffix_refl _
  | succ n ih =>
    intro ot
    rw [trimOverlapAux]
    split
    · exact (ih _).trans (List.drop_suffix 10 ot)
    · exact List.suffix_refl _

theorem trimOverlap_suffix (vocab : Vocab) (overlapT : Nat) (ot : Str) :
    trimOverlap vocab overlapT ot <:+ ot :=
  trimOverlapAux_suffix vocab overlapT ot.length ot

theorem addOverlapAux_texts (vocab : Vocab) (overlapT : Nat) :
    ∀ l prev, (addOverlapAux vocab overlapT prev l).map (·.text) = l.map (·.text) := by
  intro l
  induction l with
  | nil => intro prev; simp [addOverlapAux]
  | cons c rest ih =>
    intro prev
    simp only [addOverlapAux, List.map_cons]
    exact congrArg (c.text :: ·) (ih _)

theorem addOverlapAux_overlap (vocab : Vocab) (overlapT : Nat) :
    ∀ l prev, List.Forall₂
        (fun t (cur : Chunk) => cur.overlap_text <:+ t ∧
          cur.overlap_tokens = count_tokens vocab cur.overlap_text)
        ((prev :: l).dropLast.map (·.text)) (addOverlapAux vocab overlapT prev l) := by
  intro l
  induction l with
  | nil => intro prev; simp [addOverlapAux]
  | cons c rest ih =>
    intro prev
    simp only [addOverlapAux, List.dropLast_cons₂, List.map_cons]
    constructor
    · exact ⟨(trimOverlap_suffix vocab overlapT _).trans (List.drop_suffix _ _), rfl⟩
    · have h := ih { c with
        overlap_text := trimOverlap vocab overlapT
          (prev.text.drop (prev.text.length - min prev.text.length (overlapT * 5)))
        overlap_tokens := count_tokens vocab (trimOverlap vocab overlapT
          (prev.text.drop (prev.text.length - min prev.text.length (overlapT * 5)))) }
      cases rest with
      | nil => simpa using h
      | cons d ds => simpa using h

/-- C5, amended.  For any vocabulary and any overlap budget, pass 4 leaves
every chunk's text unchanged (no continuation marker is prepended), and for
every chunk after the first it stores in `overlap_text` a suffix of the
previous chunk's text whose re-measured token count is recorded in
`overlap_tokens`. -/
theorem C5_overlap_amended (vocab : Vocab) (overlapT : Nat) (chunks : List Chunk) :
    (add_overlap vocab chunks overlapT).map (·.text) = chunks.map (·.text) ∧
    List.Forall₂
      (fun t (cur : Chunk) => cur.overlap_text <:+ t ∧
        cur.overlap_tokens = count_tokens vocab cur.overlap_text)
      (chunks.dropLast.map (·.text)) ((add_overlap vocab chunks overlapT).tail) := by
  cases chunks with
  | nil => simp [add_overlap]
  | cons c0 rest =>
    refine ⟨?_, ?_⟩
    · simp only [add_overlap, List.map_cons]
      exact congrArg (c0.text :: ·) (addOverlapAux_texts vocab overlapT rest c0)
    · simpa [add_overlap] using addOverlapAux_overlap vocab overlapT rest c0

theorem encodeAux_length_le (vocab : Vocab) :
    ∀ fuel s, (encodeAux vocab fuel s).length ≤ s.length := by
  intro fuel
  induction fuel with
  | zero =>
    intro s
    cases s with
    | nil => simp [encodeAux]
    | cons c rest => simp [encodeAux]
  | succ n ih =>
    intro s
    cases s with
    | nil => simp [encodeAux]
    | cons c rest =>
      rw [encodeAux]
      cases htl : tryLens vocab (c :: rest) (min (c :: rest).length 20) with
      | some tl =>
        obtain ⟨t, l⟩ := tl
        obtain ⟨hl1, _, _⟩ := tryLens_bounds vocab (c :: rest) _ t l htl
        have := ih ((c :: rest).drop l)
        simp only [List.length_cons, List.length_drop] at *
        omega
      | none =>
        have := ih rest
        simp only [List.length_cons]
        omega

theorem encodeAux_pieces (vocab : Vocab) :
    ∀ fuel s, s.length ≤ fuel →
      ∃ pieces : List Str, pieces.flatten = s ∧
        List.Forall₂
          (fun (p : Str) (t : Nat) => p ≠ [] ∧ p.length ≤ 20 ∧
            (vocabFind vocab p = some t ∨ ∃ c, p = [c] ∧ t = c.toNat % 256 ∧ t < 256))
          pieces (encodeAux vocab fuel s) := by
  intro fuel
  induction fuel with
  | zero =>
    intro s hlen
    have : s = [] := List.eq_nil_of_length_eq_zero (Nat.le_zero.mp hlen)
    subst this
    exact ⟨[], rfl, List.Forall₂.nil⟩
  | succ n ih =>
    intro s hlen
    cases s with
    | nil => exact ⟨[], rfl, List.Forall₂.nil⟩
    | cons c rest =>
      rw [encodeAux]
      cases htl : tryLens vocab (c :: rest) (min (c :: rest).length 20) with
      | some tl =>
        obtain ⟨t, l⟩ := tl
        obtain ⟨hl1, hl2, hfind⟩ := tryLens_bounds vocab (c :: rest) _ t l htl
        have hlmin : l ≤ (c :: rest).length := hl2.trans (Nat.min_le_left _ _)
        have hdrop : ((c :: rest).drop l).length ≤ n := by
          simp only [List.length_drop, List.length_cons] at *
          omega
        obtain ⟨pieces, hflat, hfa⟩ := ih ((c :: rest).drop l) hdrop
        refine ⟨(c :: rest).take l :: pieces, ?_, ?_⟩
        · simp [hflat]
        · refine List.Forall₂.cons ⟨?_, ?_, Or.inl ?_⟩ hfa
          · have : ((c :: rest).take l).length = l := by
              simp only [List.length_take]
              omega
            intro hnil
            rw [hnil] at this
            simp at this
            omega
          · have : ((c :: rest).take l).length = l := by
              simp only [List.length_take]
              omega
            rw [this]
            exact hl2.trans (Nat.min_le_right _ _)
          · exact hfind
      | none =>
        have hrest : rest.length ≤ n := by
          simp only [List.length_cons] at hlen
          omega
        obtain ⟨pieces, hflat, hfa⟩ := ih rest hrest
        refine ⟨[c] :: pieces, by simp [hflat], ?_⟩
        refine List.Forall₂.cons ⟨by simp, by simp, Or.inr ⟨c, rfl, rfl, ?_⟩⟩ hfa
        exact Nat.mod_lt _ (by norm_num)

/-- C8, amended.  For every vocabulary (the embedded cl100k data is not
under `src/`, so the vocabulary is the spec-modelled parameter):
`count("") = 0`; `count(s) ≤ length(s)`; and encode consumes every byte of
its input — the emitted tokens correspond to a partition of the input into
nonempty pieces of at most 20 bytes, each either found in the vocabulary or
a single byte emitted as an id in `[0, 255]`.  (The claimed bound
`count(a ++ b) ≤ count(a) + count(b) + 1` is NOT guaranteed by greedy
longest-match; see the counterexample.) -/
theorem C8_tokenizer_soundness (vocab : Vocab) (s : Str) :
    count_tokens vocab [] = 0 ∧
    count_tokens vocab s ≤ s.length ∧
    ∃ pieces : List Str, pieces.flatten = s ∧
      List.Forall₂
        (fun (p : Str) (t : Nat) => p ≠ [] ∧ p.length ≤ 20 ∧
          (vocabFind vocab p = some t ∨ ∃ c, p = [c] ∧ t = c.toNat % 256 ∧ t < 256))
        pieces (encode vocab s) := by
  obtain ⟨pieces, hflat, hfa⟩ := encodeAux_pieces vocab s.length s (Nat.le_refl _)
  exact ⟨rfl, encodeAux_length_le vocab s.length s, pieces, hflat, hfa⟩

theorem fmLoop_chain (minT maxT : Nat) :
    ∀ fuel pending finalChunks, pending.length ≤ fuel →
      List.Chain' (fun u v : Chunk => u.tokens < minT → maxT < u.tokens + v.tokens) finalChunks →
      (∀ prev, finalChunks.getLast? = some prev → ∀ c, pending.head? = some c →
        prev.tokens < minT → maxT < prev.tokens + c.tokens) →
      List.Chain' (fun u v : Chunk => u.tokens < minT → maxT < u.tokens + v.tokens)
        (fmLoop minT maxT fuel finalChunks pending) := by
  intro fuel
  induction fuel with
  | zero =>
    intro pending fc hlen hchain _
    have hnil : pending = [] := List.eq_nil_of_length_eq_zero (Nat.le_zero.mp hlen)
    subst hnil
    simpa [fmLoop] using hchain
  | succ n ih =>
    intro pending fc hlen hchain hlink
    cases pending with
    | nil => simpa [fmLoop] using hchain
    | cons c rest =>
      rw [fmLoop]
      simp only [List.length_cons] at hlen
      have hge : c.tokens ≤ (fmForward minT maxT c rest).1.tokens :=
        fmForward_tokens_ge minT maxT rest c
      have hrl : (fmForward minT maxT c rest).2.length ≤ rest.length :=
        fmForward_rest_length minT maxT rest c
      have hstop := fmForward_stop minT maxT rest c
      cases hlast : fc.getLast? with
      | none =>
        have hfc : fc = [] := by
          cases fc with
          | nil => rfl
          | cons a b => simp [List.getLast?_concat, List.getLast?] at hlast
        subst hfc
        apply ih _ _ (by omega)
        · simp only [List.nil_append]
          exact List.chain'_singleton _
        · intro prev hp c2 hc2 hsm
          simp only [List.nil_append, List.getLast?_singleton, Option.some.injEq] at hp
          subst hp
          exact hstop hsm c2 hc2
      | some prev =>
        have hfc_ne : fc ≠ [] := by
          intro h
          subst h
          simp at hlast
        have hfc_eq : fc.dropLast ++ [prev] = fc := by
          have h1 := List.dropLast_append_getLast hfc_ne
          have h2 : fc.getLast hfc_ne = prev := by
            have := List.getLast?_eq_getLast fc hfc_ne
            rw [hlast] at this
            exact (Option.some.injEq _ _).mp this.symm
          rw [h2] at h1
          exact h1
        dsimp only
        by_cases hcond : (fmForward minT maxT c rest).1.tokens < minT ∧
            prev.tokens + (fmForward minT maxT c rest).1.tokens ≤ maxT
        · rw [if_pos hcond]
          have hprev_ge : minT ≤ prev.tokens := by
            by_contra hlt
            push_neg at hlt
            have := hlink prev hlast c (by simp) hlt
            omega
          have hmerged : (mergeChunkPair prev (fmForward minT maxT c rest).1).tokens =
              prev.tokens + (fmForward minT maxT c rest).1.tokens := rfl
          apply ih _ _ (by omega)
          · rw [← hfc_eq] at hchain
            rw [List.chain'_append] at hchain ⊢
            obtain ⟨h1, _, h3⟩ := hchain
            refine ⟨h1, List.chain'_singleton _, ?_⟩
            intro x hx y hy
            simp only [List.head?_cons, Option.mem_def, Option.some.injEq] at hy
            subst hy
            intro hxlt
            have hr := h3 x hx prev (by simp) hxlt
            rw [hmerged]
            omega
          · intro prev2 hp2 c2 _ hsm2
            rw [List.getLast?_concat] at hp2
            cases hp2
            rw [hmerged] at hsm2
            omega
        · rw [if_neg hcond]
          apply ih _ _ (by omega)
          · rw [List.chain'_append]
            refine ⟨hchain, List.chain'_singleton _, ?_⟩
            intro x hx y hy
            simp only [List.head?_cons, Option.mem_def, Option.some.injEq] at hy
            subst hy
            rw [Option.mem_def, hlast, Option.some.injEq] at hx
            subst hx
            intro hxlt
            have := hlink prev hlast c (by simp) hxlt
            omega
          · intro prev2 hp2 c2 hc2 hsm2
            rw [List.getLast?_concat] at hp2
            cases hp2
            exact hstop hsm2 c2 hc2

/-- C2, amended.  After pass 7 and before the final re-measurement, every
chunk's running token count is at least `min_tokens`, except the last chunk
of the document, a sole chunk, and any chunk whose merge with the chunk
following it would push the combined running count beyond `max_tokens` (its
backward merge is then impossible too): formally, in the output of
`final_merge_pass`, an under-`minT` chunk is always followed by a chunk
with which its combined count exceeds `maxT`. -/
theorem C2_lower_bound_amended (minT maxT : Nat) (chunks : List Chunk) :
    List.Chain' (fun u v : Chunk => u.tokens < minT → maxT < u.tokens + v.tokens)
      (final_merge_pass minT maxT chunks) := by
  unfold final_merge_pass
  split
  · rename_i h
    rw [List.isEmpty_iff.mp h]
    exact List.chain'_nil
  · apply fmLoop_chain minT maxT chunks.length chunks [] (Nat.le_refl _) List.chain'_nil
    intro prev hp
    simp at hp

/-- Witness for C2 amended at the concrete counterexample configuration. -/
theorem C2_lower_bound_amended_witness :
    List.Chain' (fun u v : Chunk => u.tokens < 6 → 12 < u.tokens + v.tokens)
      (final_merge_pass 6 12
        [{ text := str "a\n", tokens := 11 }, { text := str "b\n", tokens := 3 },
         { text := str "c\n", tokens := 11 }]) :=
  C2_lower_bound_amended 6 12 _

theorem fmLoop_mem (minT maxT : Nat) (L : List Chunk) :
    ∀ fuel pending fc, pending.length ≤ fuel →
      (∀ y ∈ fc, y.tokens ≤ maxT ∨ y ∈ L) →
      (∀ y ∈ pending, y ∈ L) →
      ∀ x ∈ fmLoop minT maxT fuel fc pending, x.tokens ≤ maxT ∨ x ∈ L := by
  intro fuel
  induction fuel with
  | zero =>
    intro pending fc hlen hfc _ x hx
    have hnil : pending = [] := List.eq_nil_of_length_eq_zero (Nat.le_zero.mp hlen)
    subst hnil
    rw [fmLoop] at hx
    exact hfc x hx
  | succ n ih =>
    intro pending fc hlen hfc hpend x hx
    cases pending with
    | nil =>
      rw [fmLoop] at hx
      exact hfc x hx
    | cons c rest =>
      rw [fmLoop] at hx
      simp only [List.length_cons] at hlen
      have hrl : (fmForward minT maxT c rest).2.length ≤ rest.length :=
        fmForward_rest_length minT maxT rest c
      have hcur : (fmForward minT maxT c rest).1.tokens ≤ maxT ∨
          (fmForward minT maxT c rest).1 ∈ L := by
        rcases fmForward_result minT maxT rest c with h | h
        · rw [h]
          exact Or.inr (hpend c (List.mem_cons_self c rest))
        · exact Or.inl h
      have hrest : ∀ y ∈ (fmForward minT maxT c rest).2, y ∈ L := fun y hy =>
        hpend y (List.mem_cons_of_mem c (fmForward_rest_sub minT maxT rest c y hy))
      cases hlast : fc.getLast? with
      | none =>
        rw [hlast] at hx
        refine ih _ _ (by omega) ?_ hrest x hx
        intro y hy
        rcases List.mem_append.mp hy with h | h
        · exact hfc y h
        · simp only [List.mem_singleton] at h
          subst h
          exact hcur
      | some prev =>
        rw [hlast] at hx
        dsimp only at hx
        by_cases hcond : (fmForward minT maxT c rest).1.tokens < minT ∧
            prev.tokens + (fmForward minT maxT c rest).1.tokens ≤ maxT
        · rw [if_pos hcond] at hx
          refine ih _ _ (by omega) ?_ hrest x hx
          intro y hy
          rcases List.mem_append.mp hy with h | h
          · exact hfc y (List.mem_of_mem_dropLast h)
          · simp only [List.mem_singleton] at h
            subst h
            exact Or.inl hcond.2
        · rw [if_neg hcond] at hx
          refine ih _ _ (by omega) ?_ hrest x hx
          intro y hy
          rcases List.mem_append.mp hy with h | h
          · exact hfc y h
          · simp only [List.mem_singleton] at h
            subst h
            exact hcur

theorem final_merge_pass_mem (minT maxT : Nat) (l : List Chunk) :
    ∀ x ∈ final_merge_pass minT maxT l, x.tokens ≤ maxT ∨ x ∈ l := by
  intro x hx
  unfold final_merge_pass at hx
  split at hx
  · exact Or.inr hx
  · refine fmLoop_mem minT maxT l l.length l [] (Nat.le_refl _) ?_ (fun y hy => hy) x hx
    intro y hy
    simp at hy

theorem linesJoin_append (a b : List Str) :
    linesJoin (a ++ b) = linesJoin a ++ linesJoin b := by
  simp [linesJoin]

theorem tokensSum_append (vocab : Vocab) (a b : List Str) :
    tokensSum vocab (a ++ b) = tokensSum vocab a + tokensSum vocab b := by
  simp [tokensSum]

theorem linesJoin_eq_nil (ls : List Str) : linesJoin ls = [] ↔ ls = [] := by
  cases ls with
  | nil => simp [linesJoin]
  | cons l rest => simp [linesJoin]

theorem socLines_sound (vocab : Vocab) (maxT : Nat) (hmax : 0 < maxT) (s e : Int) :
    ∀ lines current acc, SplitAccInv vocab maxT current →
      (∀ x ∈ acc, x.tokens ≤ maxT ∨ OversplitTail vocab maxT x) →
      ∀ x ∈ socLines vocab maxT s e lines current acc,
        x.tokens ≤ maxT ∨ OversplitTail vocab maxT x := by
  intro lines
  induction lines with
  | nil =>
    intro current acc hinv hacc x hx
    rw [socLines] at hx
    split at hx
    · exact hacc x hx
    · rename_i hne
      rcases List.mem_append.mp hx with h | h
      · exact hacc x h
      · simp only [List.mem_singleton] at h
        subst h
        obtain ⟨ls, htext, htok, hdis⟩ := hinv
        rcases hdis with rfl | hle | ⟨init, lst, rfl, hlt⟩
        · exact absurd (List.isEmpty_iff.mpr (by simpa [linesJoin] using htext)) hne
        · exact Or.inl hle
        · exact Or.inr ⟨init, lst, htext, htok, hlt⟩
  | cons line rest ih =>
    intro current acc hinv hacc x hx
    simp only [socLines] at hx
    by_cases hfl : (!current.text.isEmpty &&
        decide (current.tokens + count_tokens vocab line > maxT) &&
        decide (5 * current.tokens ≥ 4 * maxT)) = true
    · simp only [if_pos hfl] at hx
      refine ih _ _ ?_ ?_ x hx
      · refine ⟨[line], by simp [linesJoin], by simp [tokensSum], ?_⟩
        right; right
        refine ⟨[], line, rfl, ?_⟩
        simpa [tokensSum] using hmax
      · intro y hy
        rcases List.mem_append.mp hy with h | h
        · exact hacc y h
        · simp only [List.mem_singleton] at h
          subst h
          obtain ⟨ls, htext, htok, hdis⟩ := hinv
          have hne : current.text ≠ [] := by
            intro h0
            simp [h0] at hfl
          rcases hdis with rfl | hle | ⟨init, lst, rfl, hlt⟩
          · exact absurd (by simpa [linesJoin] using htext) hne
          · exact Or.inl hle
          · exact Or.inr ⟨init, lst, htext, htok, hlt⟩
    · simp only [if_neg hfl] at hx
      refine ih _ _ ?_ hacc x hx
      obtain ⟨ls, htext, htok, hdis⟩ := hinv
      refine ⟨ls ++ [line], ?_, ?_, ?_⟩
      · show current.text ++ line ++ ['\n'] = linesJoin (ls ++ [line])
        rw [linesJoin_append, htext]
        simp [linesJoin, List.append_assoc]
      · show current.tokens + count_tokens vocab line = tokensSum vocab (ls ++ [line])
        rw [tokensSum_append, htok]
        simp [tokensSum]
      · by_cases hls : ls = []
        · subst hls
          right; right
          refine ⟨[], line, rfl, ?_⟩
          simpa [tokensSum] using hmax
        · by_cases hB : current.tokens + count_tokens vocab line > maxT
          · right; right
            refine ⟨ls, line, rfl, ?_⟩
            have hA : current.text.isEmpty = false := by
              rw [htext, List.isEmpty_eq_false]
              exact fun h0 => hls ((linesJoin_eq_nil ls).mp h0)
            have hC : ¬(5 * current.tokens ≥ 4 * maxT) := by
              intro hC
              exact hfl (by simp [hA, hB, hC])
            rw [← htok]
            omega
          · right; left
            show current.tokens + count_tokens vocab line ≤ maxT
            omega

theorem split_oversized_aux (vocab : Vocab) (maxT : Nat) (hmax : 0 < maxT) :
    ∀ (chunks acc : List Chunk),
      (∀ x ∈ acc, x.tokens ≤ maxT ∨ OversplitTail vocab maxT x) →
      ∀ x ∈ chunks.foldl (fun result chunk =>
          if chunk.tokens ≤ maxT then result ++ [chunk]
          else socLines vocab maxT chunk.start_page chunk.end_page (getlines chunk.text)
            { start_page := chunk.start_page } result) acc,
        x.tokens ≤ maxT ∨ OversplitTail vocab maxT x := by
  intro chunks
  induction chunks with
  | nil => intro acc hacc x hx; exact hacc x hx
  | cons ch rest ih =>
    intro acc hacc x hx
    simp only [List.foldl_cons] at hx
    refine ih _ ?_ x hx
    by_cases hch : ch.tokens ≤ maxT
    · rw [if_pos hch]
      intro y hy
      rcases List.mem_append.mp hy with h | h
      · exact hacc y h
      · simp only [List.mem_singleton] at h
        subst h
        exact Or.inl hch
    · rw [if_neg hch]
      exact socLines_sound vocab maxT hmax ch.start_page ch.end_page (getlines ch.text)
        { start_page := ch.start_page } acc ⟨[], rfl, rfl, Or.inl rfl⟩ hacc

theorem split_oversized_sound (vocab : Vocab) (maxT : Nat) (hmax : 0 < maxT)
    (chunks : List Chunk) :
    ∀ x ∈ split_oversized_chunks vocab maxT chunks,
      x.tokens ≤ maxT ∨ OversplitTail vocab maxT x := by
  intro x hx
  exact split_oversized_aux vocab maxT hmax chunks [] (by simp) x hx

/-- C1, amended.  After pass 7 and before the final re-measurement, every
chunk's running token count is at most `max_tokens` UNLESS it came out of
the pass-6 split having overflowed on its final line while the accumulator
was still below the `0.8 · max_tokens` flush threshold; such a chunk may
contain several lines (each possibly within `max_tokens` on its own), not
just a single oversized line as the claim states.  Applied to the pipeline's
pass-6/pass-7 composition on arbitrary pass-5 output. -/
theorem C1_upper_bound_amended (vocab : Vocab) (minT maxT : Nat) (chunks : List Chunk)
    (hmax : 0 < maxT) (c : Chunk)
    (hc : c ∈ final_merge_pass minT maxT (split_oversized_chunks vocab maxT chunks)) :
    c.tokens ≤ maxT ∨ OversplitTail vocab maxT c := by
  rcases final_merge_pass_mem minT maxT _ c hc with h | h
  · exact Or.inl h
  · exact split_oversized_sound vocab maxT hmax chunks c h

/-- Witness for C1 amended at a concrete chunk. -/
theorem C1_upper_bound_amended_witness :
    (({ text := ['a', '\n'], tokens := 1 } : Chunk) ∈
        final_merge_pass 6 12
          (split_oversized_chunks [] 12 [{ text := ['a', '\n'], tokens := 1 }])) ∧
    (({ text := ['a', '\n'], tokens := 1 } : Chunk).tokens ≤ 12 ∨
      OversplitTail [] 12 { text := ['a', '\n'], tokens := 1 }) :=
  ⟨by decide,
   C1_upper_bound_amended [] 6 12 [{ text := ['a', '\n'], tokens := 1 }] (by decide) _
     (by decide)⟩

theorem foldr_min_comm : ∀ (xs : List Nat) (a e : Nat),
    xs.foldr min (min a e) = min a (xs.foldr min e) := by
  intro xs
  induction xs with
  | nil => intro a e; rfl
  | cons x xs ih =>
    intro a e
    simp only [List.foldr_cons, ih]
    omega

theorem majorLinesMin_nil : majorLinesMin [] = 999 := rfl

theorem majorLinesMin_cons (l : AnnotatedLine) (ls : List AnnotatedLine) :
    majorLinesMin (l :: ls) =
      if l.type = .MAJOR_HEADING then min l.heading_level (majorLinesMin ls)
      else majorLinesMin ls := by
  by_cases h : l.type = .MAJOR_HEADING
  · simp [majorLinesMin, h]
  · simp [majorLinesMin, h]

theorem majorLinesMin_le (ls : List AnnotatedLine) : majorLinesMin ls ≤ 999 := by
  induction ls with
  | nil => exact Nat.le_refl _
  | cons l ls ih =>
    rw [majorLinesMin_cons]
    split
    · omega
    · exact ih

theorem majorLinesMin_append (a b : List AnnotatedLine) :
    majorLinesMin (a ++ b) = min (majorLinesMin a) (majorLinesMin b) := by
  induction a with
  | nil =>
    have := majorLinesMin_le b
    simp only [List.nil_append, majorLinesMin_nil]
    omega
  | cons l a ih =>
    rw [List.cons_append, majorLinesMin_cons, majorLinesMin_cons, ih]
    split
    · omega
    · rfl

theorem majorLinesMin_no_major (ls : List AnnotatedLine)
    (h : hasMajorLine ls = false) : majorLinesMin ls = 999 := by
  induction ls with
  | nil => rfl
  | cons l ls ih =>
    simp only [hasMajorLine, List.any_cons, Bool.or_eq_false_iff] at h
    rw [majorLinesMin_cons, if_neg (by simpa using h.1)]
    exact ih (by simpa [hasMajorLine] using h.2)

theorem unitWF_empty : UnitWF {} := ⟨rfl, rfl⟩

theorem add_line_wf (u : SemanticUnit) (l : AnnotatedLine) (h : UnitWF u) :
    UnitWF (u.add_line l) := by
  obtain ⟨hmax, hmaj⟩ := h
  constructor
  · show (if l.type = .MAJOR_HEADING then min u.max_heading_level l.heading_level
        else u.max_heading_level) = majorLinesMin (u.lines ++ [l])
    rw [majorLinesMin_append, hmax, majorLinesMin_cons]
    have h999 := majorLinesMin_le u.lines
    split
    · simp only [majorLinesMin_nil]
      omega
    · simp only [majorLinesMin_nil]
      omega
  · show (u.has_major_heading || decide (l.type = .MAJOR_HEADING)) =
      hasMajorLine (u.lines ++ [l])
    simp [hasMajorLine, hmaj]

theorem createSemanticUnitsAux_wf :
    ∀ ls current acc, UnitWF current → (∀ u ∈ acc, UnitWF u) →
      ∀ u ∈ createSemanticUnitsAux ls current acc, UnitWF u := by
  intro ls
  induction ls with
  | nil =>
    intro current acc hcur hacc u hu
    rw [createSemanticUnitsAux] at hu
    split at hu
    · exact hacc u hu
    · rcases List.mem_append.mp hu with h | h
      · exact hacc u h
      · simp only [List.mem_singleton] at h
        subst h
        exact hcur
  | cons line rest ih =>
    intro current acc hcur hacc u hu
    simp only [createSemanticUnitsAux] at hu
    refine ih _ _ ?_ ?_ u hu
    · split
      · split
        · exact unitWF_empty
        · exact add_line_wf _ _ unitWF_empty
      · split
        · exact hcur
        · exact add_line_wf _ _ hcur
    · split
      · intro y hy
        rcases List.mem_append.mp hy with h | h
        · exact hacc y h
        · simp only [List.mem_singleton] at h
          subst h
          exact hcur
      · exact hacc

theorem create_semantic_units_wf (ls : List AnnotatedLine) :
    ∀ u ∈ create_semantic_units ls, UnitWF u :=
  createSemanticUnitsAux_wf ls {} [] unitWF_empty (by simp)

theorem cicAddUnit_text (c : Chunk) (u : SemanticUnit) :
    (cicAddUnit c u).text = c.text ++ u.get_text := by
  cases hp : u.pages <;> by_cases hm : u.has_major_heading <;>
    simp [cicAddUnit, hp, hm]

theorem cicAddUnit_min (c : Chunk) (u : SemanticUnit) :
    (cicAddUnit c u).min_heading_level =
      if u.has_major_heading then min c.min_heading_level u.max_heading_level
      else c.min_heading_level := by
  cases hp : u.pages <;> by_cases hm : u.has_major_heading <;>
    simp [cicAddUnit, hp, hm]

theorem cicAddUnit_major (c : Chunk) (u : SemanticUnit) :
    (cicAddUnit c u).has_major_heading = (c.has_major_heading || u.has_major_heading) := by
  cases hp : u.pages <;> by_cases hm : u.has_major_heading <;>
    simp [cicAddUnit, hp, hm]

theorem cicFold_text : ∀ (seg : List SemanticUnit) (c : Chunk),
    (seg.foldl cicAddUnit c).text = c.text ++ unitsText seg := by
  intro seg
  induction seg with
  | nil => intro c; simp [unitsText]
  | cons u seg ih =>
    intro c
    simp only [List.foldl_cons, ih, cicAddUnit_text, unitsText, List.map_cons,
      List.flatten_cons, List.append_assoc]

theorem cicFold_min : ∀ (seg : List SemanticUnit) (c : Chunk),
    (∀ u ∈ seg, UnitWF u) → c.min_heading_level ≤ 999 →
    (seg.foldl cicAddUnit c).min_heading_level =
      min c.min_heading_level (majorLinesMin (unitsLines seg)) := by
  intro seg
  induction seg with
  | nil =>
    intro c _ hle
    simp only [List.foldl_nil, unitsLines, List.map_nil, List.flatten_nil, majorLinesMin_nil]
    omega
  | cons u seg ih =>
    intro c hwf hle
    have hu := hwf u (List.mem_cons_self u seg)
    have hrest : ∀ v ∈ seg, UnitWF v := fun v hv => hwf v (List.mem_cons_of_mem u hv)
    have hul : unitsLines (u :: seg) = u.lines ++ unitsLines seg := by
      simp [unitsLines]
    rw [List.foldl_cons, hul, majorLinesMin_append]
    by_cases hm : u.has_major_heading
    · have h1 : (cicAddUnit c u).min_heading_level =
          min c.min_heading_level u.max_heading_level := by
        rw [cicAddUnit_min, if_pos hm]
      rw [ih _ hrest (by rw [h1]; omega), h1, hu.1]
      omega
    · have h1 : (cicAddUnit c u).min_heading_level = c.min_heading_level := by
        rw [cicAddUnit_min, if_neg hm]
      have hnomaj : hasMajorLine u.lines = false := by
        rw [← hu.2]
        exact Bool.eq_false_iff.mpr hm
      rw [ih _ hrest (by rw [h1]; exact hle), h1, majorLinesMin_no_major u.lines hnomaj]
      have := majorLinesMin_le (unitsLines seg)
      omega

theorem cicFold_major : ∀ (seg : List SemanticUnit) (c : Chunk),
    (∀ u ∈ seg, UnitWF u) →
    (seg.foldl cicAddUnit c).has_major_heading =
      (c.has_major_heading || hasMajorLine (unitsLines seg)) := by
  intro seg
  induction seg with
  | nil => intro c _; simp [unitsLines, hasMajorLine]
  | cons u seg ih =>
    intro c hwf
    have hu := hwf u (List.mem_cons_self u seg)
    have hrest : ∀ v ∈ seg, UnitWF v := fun v hv => hwf v (List.mem_cons_of_mem u hv)
    rw [List.foldl_cons, ih _ hrest, cicAddUnit_major, hu.2]
    simp [unitsLines, hasMajorLine, Bool.or_assoc]

theorem unitsText_nil : unitsText [] = [] := rfl

theorem cicAux_seg (maxT : Nat) :
    ∀ (units : List SemanticUnit) (current : Chunk) (acc : List Chunk),
      (∃ seg : List SemanticUnit, (∀ u ∈ seg, UnitWF u) ∧
        current = seg.foldl cicAddUnit {}) →
      (∀ c ∈ acc, ∃ seg : List SemanticUnit, seg ≠ [] ∧ (∀ u ∈ seg, UnitWF u) ∧
        c = seg.foldl cicAddUnit {}) →
      (∀ u ∈ units, UnitWF u) →
      ∀ c ∈ cicAux maxT units current acc,
        ∃ seg : List SemanticUnit, seg ≠ [] ∧ (∀ u ∈ seg, UnitWF u) ∧
          c = seg.foldl cicAddUnit {} := by
  intro units
  induction units with
  | nil =>
    intro current acc hcur hacc _ c hc
    rw [cicAux] at hc
    split at hc
    · exact hacc c hc
    · rename_i hne
      rcases List.mem_append.mp hc with h | h
      · exact hacc c h
      · simp only [List.mem_singleton] at h
        subst h
        obtain ⟨seg, hwf, rfl⟩ := hcur
        refine ⟨seg, ?_, hwf, rfl⟩
        intro hseg
        subst hseg
        simp at hne
  | cons u rest ih =>
    intro current acc hcur hacc hwfu c hc
    simp only [cicAux] at hc
    obtain ⟨seg, hwf, rfl⟩ := hcur
    have hu : UnitWF u := hwfu u (List.mem_cons_self u rest)
    have hrest : ∀ v ∈ rest, UnitWF v := fun v hv => hwfu v (List.mem_cons_of_mem u hv)
    by_cases hfl : (!(seg.foldl cicAddUnit {} : Chunk).text.isEmpty &&
        decide ((seg.foldl cicAddUnit {} : Chunk).tokens + u.total_tokens > maxT)) = true
    · simp only [if_pos hfl] at hc
      refine ih _ _ ?_ ?_ hrest c hc
      · refine ⟨[u], ?_, by simp⟩
        intro v hv
        simp only [List.mem_singleton] at hv
        subst hv
        exact hu
      · intro y hy
        rcases List.mem_append.mp hy with h | h
        · exact hacc y h
        · simp only [List.mem_singleton] at h
          subst h
          refine ⟨seg, ?_, hwf, rfl⟩
          intro hseg
          subst hseg
          simp at hfl
    · simp only [if_neg hfl] at hc
      refine ih _ _ ?_ hacc hrest c hc
      refine ⟨seg ++ [u], ?_, by rw [List.foldl_append]; rfl⟩
      intro v hv
      rcases List.mem_append.mp hv with h | h
      · exact hwf v h
      · simp only [List.mem_singleton] at h
        subst h
        exact hu

/-- C7, amended.  In pass 3's output (which passes 5 and 7 later merge under
the same rules and pass 6 may re-split, resetting the metadata), every
chunk's `min_heading_level` is the smallest heading level among the
MAJOR-heading lines (levels 1–2) of the semantic units packed into it, or
the sentinel 999 when none of its lines is a major heading; minor headings
(level ≥ 3) are ignored, contrary to the claim.  `has_major_heading` agrees
with the presence of a major-heading line. -/
theorem C7_min_heading_amended (vocab : Vocab) (pages : List (Str × Int)) (maxT : Nat)
    (c : Chunk)
    (hc : c ∈ create_initial_chunks (create_semantic_units (annotate_lines vocab pages)) maxT) :
    ∃ seg : List SemanticUnit, seg ≠ [] ∧ c.text = unitsText seg ∧
      c.min_heading_level = majorLinesMin (unitsLines seg) ∧
      c.has_major_heading = hasMajorLine (unitsLines seg) := by
  have hwf : ∀ u ∈ create_semantic_units (annotate_lines vocab pages), UnitWF u :=
    create_semantic_units_wf _
  obtain ⟨seg, hne, hsegwf, rfl⟩ :=
    cicAux_seg maxT _ {} [] ⟨[], by simp, rfl⟩ (by simp) hwf c hc
  refine ⟨seg, hne, ?_, ?_, ?_⟩
  · rw [cicFold_text]
    rfl
  · rw [cicFold_min seg {} hsegwf (by exact Nat.le_refl _)]
    have := majorLinesMin_le (unitsLines seg)
    show min 999 _ = _
    omega
  · rw [cicFold_major seg {} hsegwf]
    rfl

/-- Witness for C7 amended at a concrete one-page document. -/
theorem C7_min_heading_amended_witness :
    (({ text := str "# t\n", tokens := 3, start_page := 0, end_page := 0,
        has_major_heading := true, min_heading_level := 1 } : Chunk) ∈
      create_initial_chunks (create_semantic_units (annotate_lines [] [(str "# t", 0)])) 12) ∧
    (∃ seg : List SemanticUnit, seg ≠ [] ∧
      ({ text := str "# t\n", tokens := 3, start_page := 0, end_page := 0,
         has_major_heading := true, min_heading_level := 1 } : Chunk).text = unitsText seg ∧
      ({ text := str "# t\n", tokens := 3, start_page := 0, end_page := 0,
         has_major_heading := true, min_heading_level := 1 } : Chunk).min_heading_level =
        majorLinesMin (unitsLines seg) ∧
      ({ text := str "# t\n", tokens := 3, start_page := 0, end_page := 0,
         has_major_heading := true, min_heading_level := 1 } : Chunk).has_major_heading =
        hasMajorLine (unitsLines seg)) :=
  ⟨by decide, C7_min_heading_amended [] [(str "# t", 0)] 12 _ (by decide)⟩

/-- C7, counterexample.  A page consisting of the single minor heading
"### x": the returned chunk contains a heading line of (smallest positive)
level 3, yet reports the sentinel `min_heading_level = 999`, because the
source only tracks MAJOR headings (level ≤ 2). -/
theorem C7_min_heading_counterexample :
    (create_hierarchical_chunks_internal [] [(str "### x", 0)] 12 0 6).map
      (fun c => (c.min_heading_level, c.text)) = [(999, str "### x\n")] ∧
    detect_line_type (str "### x") = (.MINOR_HEADING, 3) ∧
    (3 : Nat) ≠ 999 ∧ 0 < 3 := by decide

/-- Witness for C5 amended at the concrete counterexample input. -/
theorem C5_overlap_amended_witness :
    (add_overlap []
        [{ text := str "hello world", tokens := 11 },
         { text := str "next", tokens := 4 }] 2).map (fun c => c.text) =
      ([{ text := str "hello world", tokens := 11 },
        { text := str "next", tokens := 4 }] : List Chunk).map (fun c => c.text) ∧
    List.Forall₂
      (fun t (cur : Chunk) => cur.overlap_text <:+ t ∧
        cur.overlap_tokens = count_tokens [] cur.overlap_text)
      (([{ text := str "hello world", tokens := 11 },
         { text := str "next", tokens := 4 }] : List Chunk).dropLast.map (fun c => c.text))
      ((add_overlap []
        [{ text := str "hello world", tokens := 11 },
         { text := str "next", tokens := 4 }] 2).tail) :=
  C5_overlap_amended [] 2
    [{ text := str "hello world", tokens := 11 }, { text := str "next", tokens := 4 }]

/-- Witness for C8 amended at the counterexample vocabulary and input. -/
theorem C8_tokenizer_soundness_witness :
    count_tokens [(str "xy", 1000)] [] = 0 ∧
    count_tokens [(str "xy", 1000)] (str "x") ≤ (str "x").length ∧
    ∃ pieces : List Str, pieces.flatten = str "x" ∧
      List.Forall₂
        (fun (p : Str) (t : Nat) => p ≠ [] ∧ p.length ≤ 20 ∧
          (vocabFind [(str "xy", 1000)] p = some t ∨
            ∃ c, p = [c] ∧ t = c.toNat % 256 ∧ t < 256))
        pieces (encode [(str "xy", 1000)] (str "x")) :=
  C8_tokenizer_soundness [(str "xy", 1000)] (str "x")

end FastPdfParser

